import Mathlib

/-!
Shallow embedding of `src/main.rs` of the spotify-reorder repository,
together with theorems settling the specification claims about it.

The two functions with algorithmic content are embedded:

* `get_music_list` (canonicalizer and key builder): consumes playlist items,
  builds one canonical string key per item, and returns the keys in playlist
  order together with their sorted permutation, or fails on the first
  ineligible item / missing field.  The two `panic` sites of the source
  (missing `track` payload, and the unguarded `artists[0]` access) are made
  visible as a distinguished `panicked` outcome.

* `reorder_musics` (diff/reorder engine): walks the target list left to
  right, looks each target key up in the mutable mirror of the current
  order, batches an already-matching run into one block move, issues the
  move through an injected primitive, and replays it on the mirror
  (drain + re-insert).  The remote move primitive is modelled as an oracle
  `Nat → MoveCall → Option E` giving, for each call index, either `none`
  (success) or `some e` (failure, propagated verbatim).  The Rust loop also
  sleeps and prints; neither affects the state and neither is modelled.
-/

namespace SpotifyReorder

/-- One remote block-move request, as passed to
`spotify.playlist_reorder_items`: range start `src`, insertion point `dst`,
block length `len` (the source's `music_sequence_count + 1`). -/
structure MoveCall where
  src : Nat
  dst : Nat
  len : Nat
deriving DecidableEq

/-- Mirror update performed after a successful move (`main.rs` lines
176-181): `drain(src..src+len)` removes the contiguous block, and the
following insert loop splices it back so its first element lands at `dst`.
In every state the engine reaches under its precondition the indices are in
bounds, where this take/drop splice agrees with `Vec::drain`/`Vec::insert`. -/
def applyMove (l : List String) (src dst len : Nat) : List String :=
  let moved := (l.drop src).take len
  let rest := l.take src ++ l.drop (src + len)
  rest.take dst ++ (moved ++ rest.drop dst)

/-- Replay a list of successful moves on a mirror, in order. -/
def applyCalls (l : List String) (calls : List MoveCall) : List String :=
  calls.foldl (fun acc c => applyMove acc c.src c.dst c.len) l

/-- The source's `unordered_music_list.iter().position(|x| x == &current_music)`:
index of the first element satisfying the predicate. -/
def position (p : String → Bool) : List String → Option Nat
  | [] => none
  | x :: xs => if p x then some 0 else (position p xs).map (· + 1)

/-- The run-extension `while` loop of `main.rs` lines 158-163: starting from
`seq`, keep extending while `ordered[t+1+seq] == cur[c+1+seq]`, breaking as
soon as `t + seq + 1 == n` or `c + seq + 1 == n` after an extension.  The
Rust loop has no fuel; the engine calls this with fuel `n`, which is enough
for every state the loop reaches (the break condition fires before `seq`
exceeds `n`). -/
def runLenAux (ordered cur : List String) (n t c : Nat) : Nat → Nat → Nat
  | 0, seq => seq
  | fuel + 1, seq =>
    if ordered.getD (t + 1 + seq) "" == cur.getD (c + 1 + seq) "" then
      if t + (seq + 1) + 1 = n ∨ c + (seq + 1) + 1 = n then seq + 1
      else runLenAux ordered cur n t c fuel (seq + 1)
    else seq

/-- The `music_sequence_count` computed for one move: 0 unless the guard
`ordered_list_index+1 != music_len && unordered_list_index+1 != music_len`
of `main.rs` line 157 holds, in which case the run-extension loop runs. -/
def musicSequenceCount (ordered cur : List String) (n t c : Nat) : Nat :=
  if t + 1 ≠ n ∧ c + 1 ≠ n then runLenAux ordered cur n t c n 0 else 0

/-- Outcome of one engine run.  `ok` and `remoteErr` carry the final mirror
and the successfully issued moves in order; `panicked` marks the
`.unwrap()` on the position lookup (`main.rs` line 152) firing. -/
inductive ReorderResult (E : Type) where
  | ok (mirror : List String) (calls : List MoveCall)
  | remoteErr (e : E) (mirror : List String) (calls : List MoveCall)
  | panicked (mirror : List String) (calls : List MoveCall)
deriving DecidableEq

/-- The `while ordered_list_index < music_len` loop of `reorder_musics`
(`main.rs` lines 148-187).  `t` is `ordered_list_index`, `k` counts issued
move calls (feeding the failure oracle), `cur` is the mutable
`unordered_music_list` mirror, `calls` accumulates the successful moves.
Each iteration advances `t` by exactly one, so fuel `n - t` drives the
recursion. -/
def reorderAux {E : Type} (move : Nat → MoveCall → Option E)
    (ordered : List String) (n : Nat) :
    Nat → Nat → Nat → List String → List MoveCall → ReorderResult E
  | 0, _, _, cur, calls => .ok cur calls
  | fuel + 1, t, k, cur, calls =>
    let current_music := ordered.getD t ""
    match position (fun x => x == current_music) cur with
    | none => .panicked cur calls
    | some c =>
      if t = c then
        reorderAux move ordered n fuel (t + 1) k cur calls
      else
        let seq := musicSequenceCount ordered cur n t c
        let call : MoveCall := ⟨c, t, seq + 1⟩
        match move k call with
        | some e => .remoteErr e cur calls
        | none =>
          reorderAux move ordered n fuel (t + 1) (k + 1)
            (applyMove cur c t (seq + 1)) (calls ++ [call])

/-- `reorder_musics` of `main.rs` lines 136-189, with the remote primitive
injected as `move`.  `music_len` is the length of the ordered (target)
list, and the loop starts at `ordered_list_index = 0`. -/
def reorder_musics {E : Type} (move : Nat → MoveCall → Option E)
    (ordered_music_list : List String) (unordered_music_list : List String) :
    ReorderResult E :=
  reorderAux move ordered_music_list ordered_music_list.length
    ordered_music_list.length 0 0 unordered_music_list []

end SpotifyReorder

namespace SpotifyReorder

/-! Basic facts about `position` (the model of `Iterator::position`). -/

theorem position_lt {p : String → Bool} :
    ∀ {l : List String} {c : Nat}, position p l = some c → c < l.length := by
  intro l
  induction l with
  | nil => intro c h; simp [position] at h
  | cons x xs ih =>
    intro c h
    simp only [List.length_cons]
    by_cases hx : p x
    · simp [position, hx] at h
      omega
    · simp [position, hx, Option.map_eq_some'] at h
      obtain ⟨c', hc', rfl⟩ := h
      have := ih hc'
      omega

theorem position_getElem {v : String} :
    ∀ {l : List String} {c : Nat},
      position (fun x => x == v) l = some c → l[c]? = some v := by
  intro l
  induction l with
  | nil => intro c h; simp [position] at h
  | cons x xs ih =>
    intro c h
    by_cases hx : x == v
    · simp [position, hx] at h
      subst h
      simp [eq_of_beq hx]
    · simp [position, hx, Option.map_eq_some'] at h
      obtain ⟨c', hc', rfl⟩ := h
      simpa using ih hc'

theorem position_not_before {v : String} :
    ∀ {l : List String} {c : Nat},
      position (fun x => x == v) l = some c →
      ∀ j, j < c → l[j]? ≠ some v := by
  intro l
  induction l with
  | nil => intro c h; simp [position] at h
  | cons x xs ih =>
    intro c h j hj
    by_cases hx : x == v
    · simp [position, hx] at h
      omega
    · simp [position, hx, Option.map_eq_some'] at h
      obtain ⟨c', hc', rfl⟩ := h
      match j with
      | 0 =>
        simp only [List.getElem?_cons_zero, ne_eq, Option.some.injEq]
        intro hxv
        exact hx (by simp [hxv])
      | j' + 1 =>
        simpa using ih hc' j' (by omega)

theorem position_eq_some_of_mem {v : String} :
    ∀ {l : List String}, v ∈ l → ∃ c, position (fun x => x == v) l = some c := by
  intro l
  induction l with
  | nil => intro h; simp at h
  | cons x xs ih =>
    intro h
    by_cases hx : x == v
    · exact ⟨0, by simp [position, hx]⟩
    · have hv : v ∈ xs := by
        rcases List.mem_cons.mp h with h1 | h1
        · exact absurd (by simp [h1]) hx
        · exact h1
      obtain ⟨c, hc⟩ := ih hv
      exact ⟨c + 1, by simp [position, hx, hc]⟩

theorem position_of_nodup {v : String} {l : List String} {t : Nat}
    (hnd : l.Nodup) (ht : l[t]? = some v) :
    position (fun x => x == v) l = some t := by
  obtain ⟨c, hc⟩ := position_eq_some_of_mem (List.getElem?_mem ht)
  have hcv := position_getElem hc
  have hct : c = t := by
    by_contra hne
    rcases Nat.lt_or_ge c t with hlt | hge
    · exact (List.nodup_iff_getElem?_ne_getElem?.mp hnd c t hlt
        (by have := List.getElem?_eq_some_iff.mp ht; exact this.1)) (hcv.trans ht.symm)
    · have hlt : t < c := by omega
      exact (List.nodup_iff_getElem?_ne_getElem?.mp hnd t c hlt
        (position_lt hc)) (ht.trans hcv.symm)
  exact hct ▸ hc

/-! Facts about `applyMove`. -/

theorem applyMove_perm (l : List String) (src dst len : Nat) :
    (applyMove l src dst len).Perm l := by
  rw [List.perm_iff_count]
  intro a
  unfold applyMove
  simp only [List.count_append]
  have h1 : ((l.take src ++ l.drop (src + len)).take dst).count a
      + ((l.take src ++ l.drop (src + len)).drop dst).count a
      = (l.take src).count a + (l.drop (src + len)).count a := by
    rw [← List.count_append, List.take_append_drop, List.count_append]
  have h2 : ((l.drop src).take len).count a + (l.drop (src + len)).count a
      = (l.drop src).count a := by
    rw [← List.drop_drop, ← List.count_append, List.take_append_drop]
  have h3 : (l.take src).count a + (l.drop src).count a = l.count a := by
    rw [← List.count_append, List.take_append_drop]
  omega

theorem applyMove_getElem?_of_lt {l : List String} {src dst len i : Nat}
    (hi : i < dst) (hds : dst ≤ src) (hsl : src ≤ l.length) :
    (applyMove l src dst len)[i]? = l[i]? := by
  unfold applyMove
  have htl : (l.take src).length = src := by simp; omega
  have hrest : ((l.take src ++ l.drop (src + len)).take dst).length = dst := by
    simp
    omega
  rw [List.getElem?_append_left (by rw [hrest]; exact hi)]
  rw [List.getElem?_take_of_lt hi]
  rw [List.getElem?_append_left (by rw [htl]; omega)]
  rw [List.getElem?_take_of_lt (by omega)]

theorem applyMove_getElem?_dst {l : List String} {src dst len : Nat}
    (hds : dst ≤ src) (hsl : src < l.length) (hlen : 1 ≤ len) :
    (applyMove l src dst len)[dst]? = l[src]? := by
  unfold applyMove
  have hrest : ((l.take src ++ l.drop (src + len)).take dst).length = dst := by
    simp
    omega
  rw [List.getElem?_append_right (le_of_eq hrest)]
  rw [hrest, Nat.sub_self]
  have hmoved : 0 < ((l.drop src).take len).length := by
    simp
    omega
  rw [List.getElem?_append_left hmoved]
  rw [List.getElem?_take_of_lt (by omega)]
  rw [List.getElem?_drop, Nat.add_zero]

end SpotifyReorder

namespace SpotifyReorder

theorem reorderAux_zero {E : Type} (move : Nat → MoveCall → Option E)
    (ordered : List String) (n t k : Nat) (cur : List String) (calls : List MoveCall) :
    reorderAux move ordered n 0 t k cur calls = .ok cur calls := rfl

theorem reorderAux_panic {E : Type} {move : Nat → MoveCall → Option E}
    {ordered : List String} {n fuel t k : Nat} {cur : List String} {calls : List MoveCall}
    (h : position (fun x => x == ordered.getD t "") cur = none) :
    reorderAux move ordered n (fuel + 1) t k cur calls = .panicked cur calls := by
  simp only [reorderAux, h]

theorem reorderAux_skip {E : Type} {move : Nat → MoveCall → Option E}
    {ordered : List String} {n fuel t k : Nat} {cur : List String} {calls : List MoveCall}
    (h : position (fun x => x == ordered.getD t "") cur = some t) :
    reorderAux move ordered n (fuel + 1) t k cur calls
      = reorderAux move ordered n fuel (t + 1) k cur calls := by
  simp only [reorderAux, h]
  simp

theorem reorderAux_move_fail {E : Type} {move : Nat → MoveCall → Option E}
    {ordered : List String} {n fuel t k c : Nat} {cur : List String} {calls : List MoveCall}
    {e : E}
    (h : position (fun x => x == ordered.getD t "") cur = some c) (hne : t ≠ c)
    (hmv : move k ⟨c, t, musicSequenceCount ordered cur n t c + 1⟩ = some e) :
    reorderAux move ordered n (fuel + 1) t k cur calls = .remoteErr e cur calls := by
  simp only [reorderAux, h, hne, if_false, hmv]

theorem reorderAux_move_ok {E : Type} {move : Nat → MoveCall → Option E}
    {ordered : List String} {n fuel t k c : Nat} {cur : List String} {calls : List MoveCall}
    (h : position (fun x => x == ordered.getD t "") cur = some c) (hne : t ≠ c)
    (hmv : move k ⟨c, t, musicSequenceCount ordered cur n t c + 1⟩ = none) :
    reorderAux move ordered n (fuel + 1) t k cur calls
      = reorderAux move ordered n fuel (t + 1) (k + 1)
          (applyMove cur c t (musicSequenceCount ordered cur n t c + 1))
          (calls ++ [⟨c, t, musicSequenceCount ordered cur n t c + 1⟩]) := by
  simp only [reorderAux, h, hne, if_false, hmv]

end SpotifyReorder

namespace SpotifyReorder

/-- Invariant-carrying induction over the reorder loop: if the mirror is a
permutation of the (duplicate-free) target and agrees with it strictly below
the cursor `t`, then the loop never hits the lookup `unwrap`, and — when
every move succeeds — ends with the mirror equal to the target, issuing at
most `fuel` further moves, and none at all exactly when the mirror already
equals the target. -/
theorem reorderAux_invariant {E : Type} (move : Nat → MoveCall → Option E)
    (ordered : List String) (hnd : ordered.Nodup) (n : Nat) :
    ∀ (fuel t k : Nat) (cur : List String) (calls : List MoveCall),
      fuel + t = ordered.length → cur.Perm ordered →
      (∀ i, i < t → cur[i]? = ordered[i]?) →
      (∀ m cs, reorderAux move ordered n fuel t k cur calls ≠ .panicked m cs)
      ∧ ((∀ j mc, move j mc = none) →
          ∃ calls₂, reorderAux move ordered n fuel t k cur calls
              = .ok ordered (calls ++ calls₂)
            ∧ calls₂.length ≤ fuel ∧ (calls₂ = [] ↔ cur = ordered)) := by
  intro fuel
  induction fuel with
  | zero =>
    intro t k cur calls hft hperm hpre
    have hlen : cur.length = ordered.length := hperm.length_eq
    have hcur : cur = ordered := by
      apply List.ext_getElem?
      intro i
      by_cases hi : i < t
      · exact hpre i hi
      · rw [List.getElem?_eq_none (l := cur) (by omega),
          List.getElem?_eq_none (by omega)]
    constructor
    · intro m cs
      rw [reorderAux_zero]
      simp
    · intro _
      refine ⟨[], ?_, by simp, by simp [hcur]⟩
      rw [reorderAux_zero, hcur, List.append_nil]
  | succ fuel ih =>
    intro t k cur calls hft hperm hpre
    have ht : t < ordered.length := by omega
    obtain ⟨v, hv⟩ : ∃ v, ordered[t]? = some v :=
      ⟨ordered[t], List.getElem?_eq_getElem ht⟩
    have hgd : ordered.getD t "" = v := by
      simp [List.getD_eq_getElem?_getD, hv]
    have hvmem : v ∈ cur := hperm.mem_iff.mpr (List.getElem?_mem hv)
    obtain ⟨c, hpos⟩ := position_eq_some_of_mem hvmem
    have hposv : position (fun x => x == ordered.getD t "") cur = some c := by
      rw [hgd]; exact hpos
    have hcv : cur[c]? = some v := position_getElem hpos
    have hclt : c < cur.length := position_lt hpos
    have htc : t ≤ c := by
      by_contra hlt
      push_neg at hlt
      have hco : cur[c]? = ordered[c]? := hpre c hlt
      exact (List.nodup_iff_getElem?_ne_getElem?.mp hnd c t hlt ht)
        ((hco.symm.trans hcv).trans hv.symm)
    by_cases heq : t = c
    · -- the item is already in place: skip, no remote call
      have hposvt : position (fun x => x == ordered.getD t "") cur = some t := by
        rw [hposv]; exact congrArg some heq.symm
      have hpre' : ∀ i, i < t + 1 → cur[i]? = ordered[i]? := by
        intro i hi
        rcases Nat.lt_or_ge i t with h1 | h1
        · exact hpre i h1
        · have hit : i = t := by omega
          subst hit
          rw [hv]
          rw [heq]
          exact hcv
      obtain ⟨P, Q⟩ := ih (t + 1) k cur calls (by omega) hperm hpre'
      constructor
      · intro m cs
        rw [reorderAux_skip hposvt]
        exact P m cs
      · intro halways
        obtain ⟨calls₂, h1, h2, h3⟩ := Q halways
        refine ⟨calls₂, ?_, by omega, h3⟩
        rw [reorderAux_skip hposvt]
        exact h1
    · -- out of place: one move is issued and mirrored locally
      have htlt : t < c := by omega
      have hcall1 : 1 ≤ musicSequenceCount ordered cur n t c + 1 :=
        Nat.le_add_left 1 _
      have hperm' :
          (applyMove cur c t (musicSequenceCount ordered cur n t c + 1)).Perm
            ordered := (applyMove_perm cur c t _).trans hperm
      have hpre' : ∀ i, i < t + 1 →
          (applyMove cur c t
            (musicSequenceCount ordered cur n t c + 1))[i]? = ordered[i]? := by
        intro i hi
        rcases Nat.lt_or_ge i t with h1 | h1
        · rw [applyMove_getElem?_of_lt h1 (le_of_lt htlt) (le_of_lt hclt)]
          exact hpre i h1
        · have hit : i = t := by omega
          subst hit
          rw [applyMove_getElem?_dst (le_of_lt htlt) hclt hcall1]
          rw [hcv, hv]
      have hnself : cur[t]? ≠ some v := position_not_before hpos t htlt
      have hcurne : cur ≠ ordered := by
        intro hco
        apply hnself
        rw [hco]
        exact hv
      constructor
      · intro m cs
        cases hmv : move k ⟨c, t, musicSequenceCount ordered cur n t c + 1⟩ with
        | some e =>
          rw [reorderAux_move_fail hposv heq hmv]
          simp
        | none =>
          rw [reorderAux_move_ok hposv heq hmv]
          obtain ⟨P, _⟩ := ih (t + 1) (k + 1)
            (applyMove cur c t (musicSequenceCount ordered cur n t c + 1))
            (calls ++ [⟨c, t, musicSequenceCount ordered cur n t c + 1⟩])
            (by omega) hperm' hpre'
          exact P m cs
      · intro halways
        have hmv := halways k ⟨c, t, musicSequenceCount ordered cur n t c + 1⟩
        rw [reorderAux_move_ok hposv heq hmv]
        obtain ⟨_, Q⟩ := ih (t + 1) (k + 1)
          (applyMove cur c t (musicSequenceCount ordered cur n t c + 1))
          (calls ++ [⟨c, t, musicSequenceCount ordered cur n t c + 1⟩])
          (by omega) hperm' hpre'
        obtain ⟨calls₂, h1, h2, h3⟩ := Q halways
        refine ⟨⟨c, t, musicSequenceCount ordered cur n t c + 1⟩ :: calls₂,
          ?_, by simp; omega, ?_⟩
        · rw [h1]
          simp
        · constructor
          · intro hcontra
            exact absurd hcontra (List.cons_ne_nil _ _)
          · intro hco
            exact absurd hco hcurne

end SpotifyReorder

namespace SpotifyReorder

/-- Error propagation through the loop: a `remoteErr` outcome carries the
oracle's error for the call made right after the recorded successful ones,
and a mirror equal to those successful moves replayed on the input. -/
theorem reorderAux_err {E : Type} (move : Nat → MoveCall → Option E)
    (ordered : List String) (n : Nat) :
    ∀ (fuel t k : Nat) (cur : List String) (calls₀ : List MoveCall)
      {e : E} {mir : List String} {calls : List MoveCall},
      reorderAux move ordered n fuel t k cur calls₀ = .remoteErr e mir calls →
      ∃ suffix mc, calls = calls₀ ++ suffix ∧ mir = applyCalls cur suffix
        ∧ move (k + suffix.length) mc = some e := by
  intro fuel
  induction fuel with
  | zero =>
    intro t k cur calls₀ e mir calls h
    rw [reorderAux_zero] at h
    exact absurd h (by simp)
  | succ fuel ih =>
    intro t k cur calls₀ e mir calls h
    cases hpos : position (fun x => x == ordered.getD t "") cur with
    | none =>
      rw [reorderAux_panic hpos] at h
      exact absurd h (by simp)
    | some c =>
      by_cases heq : t = c
      · rw [reorderAux_skip (by rw [hpos]; exact congrArg some heq.symm)] at h
        obtain ⟨suffix, mc, h1, h2, h3⟩ := ih _ _ _ _ h
        exact ⟨suffix, mc, h1, h2, h3⟩
      · cases hmv : move k ⟨c, t, musicSequenceCount ordered cur n t c + 1⟩ with
        | some e' =>
          rw [reorderAux_move_fail hpos heq hmv] at h
          have he : e' = e := by injection h
          have hm : cur = mir := by injection h
          have hc : calls₀ = calls := by injection h
          refine ⟨[], ⟨c, t, musicSequenceCount ordered cur n t c + 1⟩, by simp [hc.symm],
            by simp [applyCalls, hm.symm], ?_⟩
          simpa [he] using hmv
        | none =>
          rw [reorderAux_move_ok hpos heq hmv] at h
          obtain ⟨suffix, mc, h1, h2, h3⟩ := ih _ _ _ _ h
          refine ⟨⟨c, t, musicSequenceCount ordered cur n t c + 1⟩ :: suffix, mc, ?_, ?_, ?_⟩
          · rw [h1]
            simp
          · rw [h2]
            rfl
          · have harith : k + (⟨c, t, musicSequenceCount ordered cur n t c + 1⟩ :: suffix
                : List MoveCall).length = k + 1 + suffix.length := by
              simp
              omega
            rw [harith]
            exact h3

end SpotifyReorder

namespace SpotifyReorder

/-- C1.  Convergence: for every pair of equal-length lists that are
permutations of the same multiset of pairwise-distinct keys, running
`reorder_musics` to completion with a move primitive that always succeeds
(mirrored in memory by `applyMove`) terminates with the mutable current
list equal to the target list. -/
theorem reorder_musics_converges {E : Type} (move : Nat → MoveCall → Option E)
    (currentKeys targetKeys : List String)
    (hperm : currentKeys.Perm targetKeys) (hnd : targetKeys.Nodup)
    (hmove : ∀ j mc, move j mc = none) :
    ∃ calls, reorder_musics move targetKeys currentKeys = .ok targetKeys calls := by
  obtain ⟨_, Q⟩ := reorderAux_invariant move targetKeys hnd targetKeys.length
    targetKeys.length 0 0
    currentKeys [] (by omega) hperm (fun i hi => absurd hi (Nat.not_lt_zero i))
  obtain ⟨calls₂, h1, _, _⟩ := Q hmove
  refine ⟨calls₂, ?_⟩
  rw [reorder_musics, h1]
  simp

theorem reorder_musics_converges_witness :
    ∃ calls, reorder_musics (E := Unit) (fun _ _ => none)
      ["A", "B", "C", "D"] ["B", "D", "C", "A"] = .ok ["A", "B", "C", "D"] calls :=
  reorder_musics_converges (fun _ _ => none) ["B", "D", "C", "A"] ["A", "B", "C", "D"]
    (by decide) (by decide) (fun _ _ => rfl)

/-- C2.  Call-count bound and idempotence: under the same precondition and
an always-successful move primitive, the number of issued moves is at most
`n`, and it is zero exactly when the current list already equals the
target. -/
theorem reorder_musics_call_count {E : Type} (move : Nat → MoveCall → Option E)
    (currentKeys targetKeys : List String)
    (hperm : currentKeys.Perm targetKeys) (hnd : targetKeys.Nodup)
    (hmove : ∀ j mc, move j mc = none) :
    ∃ calls, reorder_musics move targetKeys currentKeys = .ok targetKeys calls
      ∧ calls.length ≤ targetKeys.length
      ∧ (calls = [] ↔ currentKeys = targetKeys) := by
  obtain ⟨_, Q⟩ := reorderAux_invariant move targetKeys hnd targetKeys.length
    targetKeys.length 0 0
    currentKeys [] (by omega) hperm (fun i hi => absurd hi (Nat.not_lt_zero i))
  obtain ⟨calls₂, h1, h2, h3⟩ := Q hmove
  refine ⟨calls₂, ?_, h2, h3⟩
  rw [reorder_musics, h1]
  simp

theorem reorder_musics_call_count_witness :
    ∃ calls, reorder_musics (E := Unit) (fun _ _ => none)
        ["A", "B", "C"] ["A", "B", "C"] = .ok ["A", "B", "C"] calls
      ∧ calls.length ≤ 3 ∧ (calls = [] ↔ (["A", "B", "C"] : List String) = ["A", "B", "C"]) :=
  reorder_musics_call_count (fun _ _ => none) ["A", "B", "C"] ["A", "B", "C"]
    (by decide) (by decide) (fun _ _ => rfl)

/-- C9.  Lookup safety: when the current and target lists are permutations
of the same set of pairwise-distinct keys, the position lookup succeeds at
every reached iteration, for any move oracle — the `unwrap` failure branch
(modelled by the `panicked` outcome) is unreachable. -/
theorem reorder_musics_lookup_safe {E : Type} (move : Nat → MoveCall → Option E)
    (currentKeys targetKeys : List String)
    (hperm : currentKeys.Perm targetKeys) (hnd : targetKeys.Nodup) :
    ∀ m cs, reorder_musics move targetKeys currentKeys ≠ .panicked m cs := by
  obtain ⟨P, _⟩ := reorderAux_invariant move targetKeys hnd targetKeys.length
    targetKeys.length 0 0
    currentKeys [] (by omega) hperm (fun i hi => absurd hi (Nat.not_lt_zero i))
  intro m cs
  rw [reorder_musics]
  exact P m cs

theorem reorder_musics_lookup_safe_witness :
    reorder_musics (E := Unit) (fun _ _ => none)
      ["A", "B"] ["B", "A"] ≠ .panicked ["B", "A"] [] :=
  reorder_musics_lookup_safe (fun _ _ => none) ["B", "A"] ["A", "B"]
    (by decide) (by decide) ["B", "A"] []

/-- C8.  Move-failure atomicity: if a move call fails, `reorder_musics`
returns that error at once; the recorded successful calls are exactly the
moves made before the failure (the failing call carries index
`calls.length`, so nothing was issued after it), and the mirror equals
those successful moves replayed on the input — the failed move is not
applied to it. -/
theorem reorder_musics_move_failure {E : Type} (move : Nat → MoveCall → Option E)
    (currentKeys targetKeys : List String)
    (_hperm : currentKeys.Perm targetKeys) (_hnd : targetKeys.Nodup)
    {e : E} {mir : List String} {calls : List MoveCall}
    (h : reorder_musics move targetKeys currentKeys = .remoteErr e mir calls) :
    mir = applyCalls currentKeys calls ∧ ∃ mc, move calls.length mc = some e := by
  rw [reorder_musics] at h
  obtain ⟨suffix, mc, h1, h2, h3⟩ := reorderAux_err move targetKeys targetKeys.length
    targetKeys.length 0 0 currentKeys [] h
  simp only [List.nil_append] at h1
  subst h1
  exact ⟨h2, mc, by simpa using h3⟩

theorem reorder_musics_move_failure_witness :
    (["A", "D", "C", "B"] : List String) = applyCalls ["D", "C", "B", "A"] [⟨3, 0, 1⟩]
      ∧ ∃ mc, (fun k (_ : MoveCall) => if k = 1 then some "boom" else none)
          ([(⟨3, 0, 1⟩ : MoveCall)].length) mc = some "boom" :=
  reorder_musics_move_failure (fun k _ => if k = 1 then some "boom" else none)
    ["D", "C", "B", "A"] ["A", "B", "C", "D"] (by decide) (by decide) (by decide)

end SpotifyReorder

namespace SpotifyReorder

theorem getD_append_add (P W : List String) (j : Nat) (d : String) :
    (P ++ W).getD (P.length + j) d = W.getD j d := by
  rw [List.getD_eq_getElem?_getD, List.getD_eq_getElem?_getD,
    List.getElem?_append_right (Nat.le_add_right P.length j),
    Nat.add_sub_cancel_left]

theorem getD_append_lt (P W : List String) (j : Nat) (d : String) (h : j < P.length) :
    (P ++ W).getD j d = P.getD j d := by
  rw [List.getD_eq_getElem?_getD, List.getD_eq_getElem?_getD,
    List.getElem?_append_left h]

theorem position_append_of_none (p : String → Bool) :
    ∀ (l₁ l₂ : List String), (∀ x ∈ l₁, ¬ p x) →
      position p (l₁ ++ l₂) = (position p l₂).map (· + l₁.length) := by
  intro l₁
  induction l₁ with
  | nil =>
    intro l₂ _
    cases h : position p l₂ <;> simp [h]
  | cons x xs ih =>
    intro l₂ h
    have hx : ¬ p x := h x (List.mem_cons_self x xs)
    rw [List.cons_append]
    show (if p x then some 0 else (position p (xs ++ l₂)).map (· + 1))
      = (position p l₂).map (· + (x :: xs).length)
    rw [if_neg hx, ih l₂ (fun y hy => h y (List.mem_cons_of_mem x hy))]
    cases position p l₂ <;> simp [Nat.add_assoc]

/-- Exact value of the run-extension loop, starting from counter `s₀`, when
the matching run ends at offset `s`. -/
theorem runLenAux_eq_of (ordered cur : List String) (n t c s : Nat)
    (hstop : t + s + 1 = n ∨ c + s + 1 = n
      ∨ ordered.getD (t + s + 1) "" ≠ cur.getD (c + s + 1) "") :
    ∀ (fuel s₀ : Nat), s₀ ≤ s → s - s₀ < fuel →
      (∀ j, s₀ + 1 ≤ j → j ≤ s → ordered.getD (t + j) "" = cur.getD (c + j) "") →
      (∀ j, s₀ + 2 ≤ j → j ≤ s → t + j ≠ n ∧ c + j ≠ n) →
      (s₀ = s → t + s + 1 ≠ n ∧ c + s + 1 ≠ n) →
      runLenAux ordered cur n t c fuel s₀ = s := by
  intro fuel
  induction fuel with
  | zero =>
    intro s₀ hle hfuel _ _ _
    omega
  | succ fuel ih =>
    intro s₀ hle hfuel hmatch hbound henter
    rcases Nat.lt_or_eq_of_le hle with hlt | heqs
    · have hm : ordered.getD (t + 1 + s₀) "" = cur.getD (c + 1 + s₀) "" := by
        have hj := hmatch (s₀ + 1) (by omega) (by omega)
        have e1 : t + 1 + s₀ = t + (s₀ + 1) := by omega
        have e2 : c + 1 + s₀ = c + (s₀ + 1) := by omega
        rw [e1, e2]
        exact hj
      simp only [runLenAux]
      rw [if_pos (beq_iff_eq.mpr hm)]
      by_cases hb : t + (s₀ + 1) + 1 = n ∨ c + (s₀ + 1) + 1 = n
      · rw [if_pos hb]
        rcases Nat.lt_or_eq_of_le (show s₀ + 1 ≤ s by omega) with hlt2 | heq2
        · exfalso
          have hbd := hbound (s₀ + 2) (by omega) (by omega)
          rcases hb with hb | hb
          · exact hbd.1 (by omega)
          · exact hbd.2 (by omega)
        · exact heq2
      · rw [if_neg hb]
        push_neg at hb
        apply ih (s₀ + 1) (by omega) (by omega)
        · intro j hj1 hj2
          exact hmatch j (by omega) hj2
        · intro j hj1 hj2
          exact hbound j (by omega) hj2
        · intro heq2
          exact ⟨by omega, by omega⟩
    · subst heqs
      have hne := henter rfl
      have hm : ¬ (ordered.getD (t + 1 + s₀) "" == cur.getD (c + 1 + s₀) "") = true := by
        rcases hstop with h | h | h
        · exact absurd h hne.1
        · exact absurd h hne.2
        · have e1 : t + 1 + s₀ = t + s₀ + 1 := by omega
          have e2 : c + 1 + s₀ = c + s₀ + 1 := by omega
          rw [e1, e2]
          simpa using h
      simp only [runLenAux]
      rw [if_neg hm]

/-- Exact value of `music_sequence_count` when the guard holds and the
matching run ends at offset `s`. -/
theorem musicSequenceCount_eq (ordered cur : List String) (n t c s : Nat)
    (hg1 : t + 1 ≠ n) (hg2 : c + 1 ≠ n) (hsn : s < n)
    (hmatch : ∀ j, 1 ≤ j → j ≤ s → ordered.getD (t + j) "" = cur.getD (c + j) "")
    (hbound : ∀ j, 2 ≤ j → j ≤ s → t + j ≠ n ∧ c + j ≠ n)
    (hstop : t + s + 1 = n ∨ c + s + 1 = n
      ∨ ordered.getD (t + s + 1) "" ≠ cur.getD (c + s + 1) "") :
    musicSequenceCount ordered cur n t c = s := by
  rw [musicSequenceCount, if_pos ⟨hg1, hg2⟩]
  apply runLenAux_eq_of ordered cur n t c s hstop n 0 (by omega) (by omega)
  · intro j hj1 hj2
    exact hmatch j hj1 hj2
  · intro j hj1 hj2
    exact hbound j hj1 hj2
  · intro h0
    exact ⟨by omega, by omega⟩

/-- Skipping over a block of `d` positions on which the mirror already
agrees with the target. -/
theorem reorderAux_skip_run {E : Type} {move : Nat → MoveCall → Option E}
    {ordered : List String} {n : Nat} {cur : List String} (hcnd : cur.Nodup) :
    ∀ (d fuel t k : Nat) (calls : List MoveCall),
      (∀ i, t ≤ i → i < t + d → ∃ v, ordered[i]? = some v ∧ cur[i]? = some v) →
      reorderAux move ordered n (d + fuel) t k cur calls
        = reorderAux move ordered n fuel (t + d) k cur calls := by
  intro d
  induction d with
  | zero =>
    intro fuel t k calls _
    simp
  | succ d ih =>
    intro fuel t k calls hcommon
    obtain ⟨v, hov, hcv⟩ := hcommon t (le_refl t) (by omega)
    have hgd : ordered.getD t "" = v := by
      simp [List.getD_eq_getElem?_getD, hov]
    have hpos : position (fun x => x == ordered.getD t "") cur = some t := by
      rw [hgd]
      exact position_of_nodup hcnd hcv
    have harr : d + 1 + fuel = d + fuel + 1 := by omega
    rw [harr, reorderAux_skip hpos,
      ih fuel (t + 1) k calls (fun i hi1 hi2 => hcommon i (by omega) (by omega))]
    have harr2 : t + 1 + d = t + (d + 1) := by omega
    rw [harr2]

/-- The block move the engine issues in the single-misplaced-run scenario
restores the target order on the mirror. -/
theorem applyMove_single_run (Z S1 R S2 : List String) :
    applyMove (Z ++ S1 ++ R ++ S2) (Z.length + S1.length) Z.length R.length
      = Z ++ R ++ S1 ++ S2 := by
  unfold applyMove
  have h1 : Z ++ S1 ++ R ++ S2 = (Z ++ S1) ++ (R ++ S2) := by
    simp [List.append_assoc]
  have hdrop1 : (Z ++ S1 ++ R ++ S2).drop (Z.length + S1.length) = R ++ S2 := by
    rw [h1]
    exact List.drop_left' (by simp)
  have h2 : Z ++ S1 ++ R ++ S2 = ((Z ++ S1) ++ R) ++ S2 := by
    simp [List.append_assoc]
  have hdrop2 : (Z ++ S1 ++ R ++ S2).drop (Z.length + S1.length + R.length) = S2 := by
    rw [h2]
    exact List.drop_left' (by simp; omega)
  have htake1 : (Z ++ S1 ++ R ++ S2).take (Z.length + S1.length) = Z ++ S1 := by
    rw [h1]
    exact List.take_left' (by simp)
  rw [hdrop1, htake1, hdrop2]
  have htakeR : (R ++ S2).take R.length = R := List.take_left R S2
  have h3 : (Z ++ S1) ++ S2 = Z ++ (S1 ++ S2) := by
    simp [List.append_assoc]
  have htakeZ : ((Z ++ S1) ++ S2).take Z.length = Z := by
    rw [h3]
    exact List.take_left Z (S1 ++ S2)
  have hdropZ : ((Z ++ S1) ++ S2).drop Z.length = S1 ++ S2 := by
    rw [h3]
    exact List.drop_left Z (S1 ++ S2)
  simp only [htakeR, htakeZ, hdropZ]
  simp [List.append_assoc]

end SpotifyReorder

namespace SpotifyReorder

/-- C3.  Run-batching: when the current order differs from the target by a
single contiguous misplaced run — current `Z ++ S1 ++ R ++ S2` against
target `Z ++ R ++ S1 ++ S2`, with `R` the run that the engine relocates —
the engine issues exactly one move, whose `blockLength` equals that run's
length. -/
theorem reorder_musics_run_batching {E : Type} (move : Nat → MoveCall → Option E)
    (Z S1 R S2 : List String)
    (hnd : (Z ++ R ++ S1 ++ S2).Nodup) (hR : R ≠ []) (hS1 : S1 ≠ [])
    (hmove : ∀ j mc, move j mc = none) :
    reorder_musics move (Z ++ R ++ S1 ++ S2) (Z ++ S1 ++ R ++ S2)
      = .ok (Z ++ R ++ S1 ++ S2) [⟨Z.length + S1.length, Z.length, R.length⟩] := by
  obtain ⟨r0, R', rfl⟩ := List.exists_cons_of_ne_nil hR
  obtain ⟨s10, S1', rfl⟩ := List.exists_cons_of_ne_nil hS1
  have hordg : Z ++ (r0 :: R') ++ (s10 :: S1') ++ S2
      = Z ++ ((r0 :: R') ++ ((s10 :: S1') ++ S2)) := by
    simp [List.append_assoc]
  have hcurg : Z ++ (s10 :: S1') ++ (r0 :: R') ++ S2
      = (Z ++ (s10 :: S1')) ++ ((r0 :: R') ++ S2) := by
    simp [List.append_assoc]
  have hcurg2 : Z ++ (s10 :: S1') ++ (r0 :: R') ++ S2
      = Z ++ ((s10 :: S1') ++ ((r0 :: R') ++ S2)) := by
    simp [List.append_assoc]
  have hn : (Z ++ (r0 :: R') ++ (s10 :: S1') ++ S2).length
      = Z.length + ((R'.length + 1) + ((S1'.length + 1) + S2.length)) := by
    simp
    omega
  have hperm : (Z ++ (s10 :: S1') ++ (r0 :: R') ++ S2).Perm
      (Z ++ (r0 :: R') ++ (s10 :: S1') ++ S2) := by
    have hp1 : ((s10 :: S1') ++ (r0 :: R')).Perm ((r0 :: R') ++ (s10 :: S1')) :=
      List.perm_append_comm
    have hp3 : (Z ++ (((s10 :: S1') ++ (r0 :: R')) ++ S2)).Perm
        (Z ++ (((r0 :: R') ++ (s10 :: S1')) ++ S2)) :=
      (hp1.append_right S2).append_left Z
    have e1 : Z ++ (s10 :: S1') ++ (r0 :: R') ++ S2
        = Z ++ (((s10 :: S1') ++ (r0 :: R')) ++ S2) := by
      simp [List.append_assoc]
    have e2 : Z ++ (r0 :: R') ++ (s10 :: S1') ++ S2
        = Z ++ (((r0 :: R') ++ (s10 :: S1')) ++ S2) := by
      simp [List.append_assoc]
    rw [e1, e2]
    exact hp3
  have hcnd : (Z ++ (s10 :: S1') ++ (r0 :: R') ++ S2).Nodup :=
    hperm.nodup_iff.mpr hnd
  have hcnd2 : ((Z ++ (s10 :: S1')) ++ ((r0 :: R') ++ S2)).Nodup := by
    rw [← hcurg]
    exact hcnd
  obtain ⟨-, -, hdisj⟩ := List.nodup_append.mp hcnd2
  -- phase 1: the common block `Z` is skipped with no calls
  have hcommon : ∀ i, 0 ≤ i → i < 0 + Z.length →
      ∃ v, (Z ++ (r0 :: R') ++ (s10 :: S1') ++ S2)[i]? = some v
        ∧ (Z ++ (s10 :: S1') ++ (r0 :: R') ++ S2)[i]? = some v := by
    intro i _ hi
    simp only [Nat.zero_add] at hi
    refine ⟨Z[i], ?_, ?_⟩
    · rw [hordg, List.getElem?_append_left hi]
      exact List.getElem?_eq_getElem hi
    · rw [hcurg2, List.getElem?_append_left hi]
      exact List.getElem?_eq_getElem hi
  -- position of the run head in the mirror
  have hkey : (Z ++ (r0 :: R') ++ (s10 :: S1') ++ S2).getD Z.length "" = r0 := by
    rw [hordg]
    have h := getD_append_add Z ((r0 :: R') ++ ((s10 :: S1') ++ S2)) 0 ""
    simpa using h
  have hnofind : ∀ x ∈ Z ++ (s10 :: S1'), ¬ ((x == r0) = true) := by
    intro x hx hbe
    have hxr : x = r0 := beq_iff_eq.mp hbe
    apply hdisj hx
    rw [hxr]
    exact List.mem_append_left S2 (List.mem_cons_self r0 R')
  have hpos0 : position (fun x => x == r0) ((r0 :: R') ++ S2) = some 0 := by
    simp [position]
  have hposfull : position (fun x => x == r0)
      (Z ++ (s10 :: S1') ++ (r0 :: R') ++ S2) = some (Z.length + (S1'.length + 1)) := by
    rw [hcurg, position_append_of_none _ _ _ hnofind, hpos0]
    simp
  have hpos : position
      (fun x => x == (Z ++ (r0 :: R') ++ (s10 :: S1') ++ S2).getD Z.length "")
      (Z ++ (s10 :: S1') ++ (r0 :: R') ++ S2) = some (Z.length + (S1'.length + 1)) := by
    rw [hkey]
    exact hposfull
  have hne : Z.length ≠ Z.length + (S1'.length + 1) := by omega
  -- the run-extension loop computes exactly the run length
  have hseq : musicSequenceCount (Z ++ (r0 :: R') ++ (s10 :: S1') ++ S2)
      (Z ++ (s10 :: S1') ++ (r0 :: R') ++ S2)
      (Z.length + ((R'.length + ((S1'.length + 1) + S2.length)) + 1))
      Z.length (Z.length + (S1'.length + 1)) = R'.length := by
    by_cases hc1 : Z.length + (S1'.length + 1) + 1
        = Z.length + ((R'.length + ((S1'.length + 1) + S2.length)) + 1)
    · have hR0 : R'.length = 0 := by omega
      rw [musicSequenceCount, if_neg (fun hcon => hcon.2 hc1)]
      omega
    · apply musicSequenceCount_eq _ _ _ _ _ R'.length (by omega) hc1 (by omega)
      · intro j hj1 hj2
        have e1 : Z.length + (S1'.length + 1) + j = (Z ++ (s10 :: S1')).length + j := by
          simp
        rw [hordg, getD_append_add, hcurg, e1, getD_append_add,
          getD_append_lt _ _ j "" (by simp; omega),
          getD_append_lt _ _ j "" (by simp; omega)]
      · intro j hj1 hj2
        exact ⟨by omega, by omega⟩
      · by_cases hS2 : S2 = []
        · right
          left
          have : S2.length = 0 := by rw [hS2]; rfl
          omega
        · obtain ⟨s20, S2', hS2e⟩ := List.exists_cons_of_ne_nil hS2
          right
          right
          have hlhs : (Z ++ (r0 :: R') ++ (s10 :: S1') ++ S2).getD
              (Z.length + R'.length + 1) "" = s10 := by
            have e1 : Z.length + R'.length + 1 = Z.length + (R'.length + 1) := by omega
            have e2 : R'.length + 1 = (r0 :: R').length + 0 := by simp
            rw [e1, hordg, getD_append_add, e2, getD_append_add]
            rfl
          have hrhs : (Z ++ (s10 :: S1') ++ (r0 :: R') ++ S2).getD
              (Z.length + (S1'.length + 1) + R'.length + 1) "" = s20 := by
            have e1 : Z.length + (S1'.length + 1) + R'.length + 1
                = (Z ++ (s10 :: S1')).length + (R'.length + 1) := by
              simp
              omega
            have e2 : R'.length + 1 = (r0 :: R').length + 0 := by simp
            rw [hcurg, e1, getD_append_add, e2, getD_append_add, hS2e]
            rfl
          rw [hlhs, hrhs]
          intro hcontra
          exact hdisj (List.mem_append_right Z (List.mem_cons_self s10 S1'))
            (hcontra ▸ List.mem_append_right (r0 :: R')
              (hS2e ▸ List.mem_cons_self s20 S2'))
  -- assemble the run
  rw [reorder_musics, hn]
  rw [reorderAux_skip_run hcnd Z.length ((R'.length + 1) + ((S1'.length + 1) + S2.length))
    0 0 [] hcommon]
  simp only [Nat.zero_add]
  have hf : (R'.length + 1) + ((S1'.length + 1) + S2.length)
      = (R'.length + ((S1'.length + 1) + S2.length)) + 1 := by omega
  rw [hf]
  rw [reorderAux_move_ok hpos hne (hmove 0 _)]
  rw [hseq]
  have happ := applyMove_single_run Z (s10 :: S1') (r0 :: R') S2
  have happ2 : applyMove (Z ++ (s10 :: S1') ++ (r0 :: R') ++ S2)
      (Z.length + (S1'.length + 1)) Z.length (R'.length + 1)
      = Z ++ (r0 :: R') ++ (s10 :: S1') ++ S2 := by
    simpa using happ
  rw [happ2]
  obtain ⟨-, Q⟩ := reorderAux_invariant move (Z ++ (r0 :: R') ++ (s10 :: S1') ++ S2)
    hnd (Z.length + ((R'.length + ((S1'.length + 1) + S2.length)) + 1))
    (R'.length + ((S1'.length + 1) + S2.length)) (Z.length + 1) (0 + 1)
    (Z ++ (r0 :: R') ++ (s10 :: S1') ++ S2)
    ([] ++ [⟨Z.length + (S1'.length + 1), Z.length, R'.length + 1⟩])
    (by simp; omega) (List.Perm.refl _) (fun i _ => rfl)
  obtain ⟨calls₂, h1, -, h3⟩ := Q hmove
  have hnil : calls₂ = [] := h3.mpr rfl
  rw [hnil, List.append_nil] at h1
  rw [h1]
  simp

end SpotifyReorder

namespace SpotifyReorder

theorem reorder_musics_run_batching_witness :
    reorder_musics (E := Unit) (fun _ _ => none)
        (["A"] ++ ["B", "C"] ++ ["D"] ++ ["E"]) (["A"] ++ ["D"] ++ ["B", "C"] ++ ["E"])
      = .ok (["A"] ++ ["B", "C"] ++ ["D"] ++ ["E"])
          [⟨(["A"] : List String).length + (["D"] : List String).length,
            (["A"] : List String).length, (["B", "C"] : List String).length⟩] :=
  reorder_musics_run_batching (fun _ _ => none) ["A"] ["D"] ["B", "C"] ["E"]
    (by decide) (by decide) (by decide) (fun _ _ => rfl)

/-- C4, counterexample.  On current `[A, C, B, D]` with target
`[A, B, C, D]`, the one move the engine issues is
`{src := 2, dst := 1, len := 1}` — it moves `B` (found at position 2 of the
mirror) to position 1.  Its `sourceIndex` is 2, not 1 as the claim (and the
prose part of the spec scenario) states; the spec's own concrete trace in
the same sentence gives `move(src=2,dst=1,len=1)`. -/
theorem reorder_musics_scenario_cex :
    reorder_musics (E := Unit) (fun _ _ => none) ["A", "B", "C", "D"] ["A", "C", "B", "D"]
        = .ok ["A", "B", "C", "D"] [⟨2, 1, 1⟩]
      ∧ (⟨2, 1, 1⟩ : MoveCall) ≠ ⟨1, 1, 1⟩ :=
  ⟨by decide, by decide⟩

/-- C4, amended.  On current `[A, C, B, D]` with target (sorted)
`[A, B, C, D]`, the engine issues exactly one move operation, with
`sourceIndex = 2` (the item `B`), `destinationIndex = 1` and
`blockLength = 1`, and no further moves afterwards; the mirror ends equal
to the target. -/
theorem reorder_musics_scenario :
    reorder_musics (E := Unit) (fun _ _ => none) ["A", "B", "C", "D"] ["A", "C", "B", "D"]
      = .ok ["A", "B", "C", "D"] [⟨2, 1, 1⟩] := by
  decide

end SpotifyReorder

namespace SpotifyReorder

/-- The field of `rspotify::model::SimplifiedArtist` the source reads. -/
structure SimplifiedArtist where
  name : String
deriving DecidableEq

/-- The fields of `rspotify::model::SimplifiedAlbum` the source reads. -/
structure SimplifiedAlbum where
  name : String
  release_date : Option String
  release_date_precision : Option String
deriving DecidableEq

/-- The fields of `rspotify::model::FullTrack` the source reads.
`disc_number` and `track_number` are the non-negative track coordinates,
modelled as `Nat`. -/
structure FullTrack where
  name : String
  artists : List SimplifiedArtist
  album : SimplifiedAlbum
  disc_number : Nat
  track_number : Nat
  is_local : Bool
deriving DecidableEq

/-- The field of `rspotify::model::FullEpisode` the source reads. -/
structure FullEpisode where
  name : String
deriving DecidableEq

/-- `rspotify::model::PlayableItem`. -/
inductive PlayableItem where
  | Track (music : FullTrack)
  | Episode (podcast : FullEpisode)
deriving DecidableEq

/-- `rspotify::model::PlaylistItem`: the playable payload may be absent. -/
structure PlaylistItem where
  track : Option PlayableItem
deriving DecidableEq

/-- `OrderingError` of `main.rs` lines 10-16.  The `SpotifyError` variant
wraps transport failures of the item producer; the embedding receives the
already-produced items, so that variant cannot arise here. -/
inductive OrderingError where
  | EpisodeInPlaylist (podcast : FullEpisode)
  | LocalMusicInPlaylist (music : FullTrack)
  | EmptyArgOnMusic (param : String) (music : String)
deriving DecidableEq

/-- `format!("{:0>6}", x)` on a natural number: left-pad the decimal digits
with `'0'` to width 6 (wider numbers are kept unchanged). -/
def pad6 (x : Nat) : String :=
  String.mk (List.replicate (6 - (toString x).length) '0') ++ toString x

/-- Outcome of the body of the `for music in playlist_iterable` loop of
`get_music_list` (`main.rs` lines 91-127) on one item: a built key, a
typed error, or one of the two process-halting situations (the `panic!` on
an absent payload at line 96, and the out-of-bounds `artists[0]` access at
line 103 when the artist list is empty). -/
inductive ItemStep where
  | ok (label : String)
  | err (e : OrderingError)
  | panicked
deriving DecidableEq

/-- One iteration of the key-building loop, mirroring the source order of
checks: payload presence, episode rejection, local-music rejection, the
`artists[0]` access, release-date presence, precision presence, then the
`push_str` sequence building `music_label`. -/
def processItem (item : PlaylistItem) : ItemStep :=
  match item.track with
  | none => .panicked
  | some (.Episode podcast) => .err (.EpisodeInPlaylist podcast)
  | some (.Track music) =>
    if music.is_local then .err (.LocalMusicInPlaylist music)
    else
      match music.artists with
      | [] => .panicked
      | artist0 :: _ =>
        match music.album.release_date with
        | none => .err (.EmptyArgOnMusic "album.release_date" music.name)
        | some release_date =>
          match music.album.release_date_precision with
          | none => .err (.EmptyArgOnMusic "album.release_date_precision" music.name)
          | some release_date_precision =>
            let music_label := artist0.name ++ "-" ++ release_date
            let music_label :=
              if release_date_precision == "year" then music_label ++ "-01-01"
              else if release_date_precision == "month" then music_label ++ "-01"
              else music_label
            let music_label := music_label ++ "-" ++ music.album.name ++ "-"
              ++ pad6 music.disc_number ++ "-" ++ pad6 music.track_number
              ++ "-" ++ music.name
            .ok music_label

/-- Result of `get_music_list`: both key lists, a typed error, or a
panic. -/
inductive MusicListResult where
  | ok (unordered ordered : List String)
  | err (e : OrderingError)
  | panicked
deriving DecidableEq

/-- The `for` loop of `get_music_list` with the keys accumulated so far;
on normal exit the accumulated list is cloned and sorted
(`sort_unstable()`, modelled by `mergeSort` under `≤` — on a list of
strings every correct sort produces the same, unique sorted result). -/
def get_music_list_go : List PlaylistItem → List String → MusicListResult
  | [], acc => .ok acc (acc.mergeSort (fun a b => a ≤ b))
  | item :: rest, acc =>
    match processItem item with
    | .ok label => get_music_list_go rest (acc ++ [label])
    | .err e => .err e
    | .panicked => .panicked

/-- `get_music_list` of `main.rs` lines 87-132, with the paginator already
resolved into its finite list of items. -/
def get_music_list (playlist_iterable : List PlaylistItem) : MusicListResult :=
  get_music_list_go playlist_iterable []

/-- The canonical key exactly as §4.1 of the spec words it: primary artist
name, release date normalized to day precision (appending "-01-01" for
"year" precision and "-01" for "month"), album name, disc number and track
number zero-padded to 6 digits, and track name, joined by the fixed
separator '-'.  C5 relates `processItem` to this spec-side shape. -/
def specCanonicalKey (artistName releaseDate precision albumName : String)
    (discNumber trackNumber : Nat) (trackName : String) : String :=
  let normalizedDate :=
    if precision = "year" then releaseDate ++ "-01-01"
    else if precision = "month" then releaseDate ++ "-01"
    else releaseDate
  artistName ++ "-" ++ normalizedDate ++ "-" ++ albumName ++ "-"
    ++ pad6 discNumber ++ "-" ++ pad6 trackNumber ++ "-" ++ trackName

end SpotifyReorder

namespace SpotifyReorder

/-- The source's inline key construction, per eligible track, produces the
spec-shaped canonical key. -/
theorem processItem_eq_spec (music : FullTrack) (artist0 : SimplifiedArtist)
    (rest : List SimplifiedArtist) (d p : String)
    (hart : music.artists = artist0 :: rest) (hloc : music.is_local = false)
    (hd : music.album.release_date = some d)
    (hp : music.album.release_date_precision = some p) :
    processItem ⟨some (.Track music)⟩
      = .ok (specCanonicalKey artist0.name d p music.album.name
          music.disc_number music.track_number music.name) := by
  by_cases hy : p = "year"
  · simp [processItem, specCanonicalKey, hart, hloc, hd, hp, hy, String.append_assoc]
  · by_cases hm : p = "month"
    · simp [processItem, specCanonicalKey, hart, hloc, hd, hp, beq_iff_eq, hy, hm,
        String.append_assoc]
    · simp [processItem, specCanonicalKey, hart, hloc, hd, hp, beq_iff_eq, hy, hm,
        String.append_assoc]

end SpotifyReorder

namespace SpotifyReorder

/-- C5.  Key construction: for every eligible track with present release
date and precision, the key builder normalizes the date to day precision
("-01-01" appended for "year" precision, "-01" for "month", unchanged
otherwise) and returns the '-'-separated concatenation of primary artist
name, normalized date, album name, 6-digit-zero-padded disc number,
6-digit-zero-padded track number, and track name, in that order
(`specCanonicalKey` states this shape in the spec's words). -/
theorem get_music_list_key_construction (music : FullTrack)
    (artist0 : SimplifiedArtist) (rest : List SimplifiedArtist) (d p : String)
    (hart : music.artists = artist0 :: rest) (hloc : music.is_local = false)
    (hd : music.album.release_date = some d)
    (hp : music.album.release_date_precision = some p) :
    processItem ⟨some (.Track music)⟩
      = .ok (specCanonicalKey artist0.name d p music.album.name
          music.disc_number music.track_number music.name) :=
  processItem_eq_spec music artist0 rest d p hart hloc hd hp

theorem get_music_list_key_construction_witness :
    processItem ⟨some (.Track
        ⟨"Song", [⟨"Art"⟩], ⟨"Alb", some "2020", some "year"⟩, 1, 2, false⟩)⟩
      = .ok (specCanonicalKey "Art" "2020" "year" "Alb" 1 2 "Song") :=
  get_music_list_key_construction
    ⟨"Song", [⟨"Art"⟩], ⟨"Alb", some "2020", some "year"⟩, 1, 2, false⟩
    ⟨"Art"⟩ [] "2020" "year" rfl rfl rfl rfl

/-! Lexicographic order plumbing for C6. -/

theorem lex_append_left {r : Char → Char → Prop} :
    ∀ (s u v : List Char), List.Lex r u v → List.Lex r (s ++ u) (s ++ v) := by
  intro s
  induction s with
  | nil => intro u v h; simpa using h
  | cons a s ih => intro u v h; exact List.Lex.cons (ih u v h)

theorem lex_append_trunc {r : Char → Char → Prop} :
    ∀ {u v : List Char}, List.Lex r u v → ∀ (x y : List Char),
      u.length = v.length → List.Lex r (u ++ x) (v ++ y) := by
  intro u v h
  induction h with
  | nil => intro x y hlen; simp at hlen
  | cons h ih => intro x y hlen; exact List.Lex.cons (ih x y (by simpa using hlen))
  | rel h => intro x y _; exact List.Lex.rel h

theorem string_lt_append_left (s t u : String) (h : t < u) : s ++ t < s ++ u := by
  rw [String.lt_iff_toList_lt] at h ⊢
  simp only [String.toList, String.data_append] at h ⊢
  exact lex_append_left s.data t.data u.data h

theorem string_lt_append_trunc (u v x y : String) (hlen : u.length = v.length)
    (h : u < v) : u ++ x < v ++ y := by
  rw [String.lt_iff_toList_lt] at h ⊢
  simp only [String.toList, String.data_append] at h ⊢
  exact lex_append_trunc h x.data y.data
    (by rw [String.length_data, String.length_data]; exact hlen)

end SpotifyReorder

namespace SpotifyReorder

/-- C6.  Key ordering: (a) two eligible tracks agreeing on artist, release
date, precision, album and disc, with track numbers 9 and 10, produce keys
in strict lexicographic order (padding correctness); (b) with the same
artist and album name, a "year"-precision release date `y` produces a key
strictly below that of a "day"-precision date later in the same year
(`y ++ s2` with `s2` a 6-character suffix above "-01-01"). -/
theorem get_music_list_key_ordering :
    (∀ (m1 m2 : FullTrack) (artist0 : SimplifiedArtist)
        (r1 r2 : List SimplifiedArtist) (d p k1 k2 : String),
      m1.artists = artist0 :: r1 → m2.artists = artist0 :: r2 →
      m1.is_local = false → m2.is_local = false →
      m1.album = m2.album →
      m1.album.release_date = some d → m1.album.release_date_precision = some p →
      m1.disc_number = m2.disc_number →
      m1.track_number = 9 → m2.track_number = 10 →
      processItem ⟨some (.Track m1)⟩ = .ok k1 →
      processItem ⟨some (.Track m2)⟩ = .ok k2 → k1 < k2)
    ∧ (∀ (m1 m2 : FullTrack) (artist0 : SimplifiedArtist)
        (r1 r2 : List SimplifiedArtist) (y s2 k1 k2 : String),
      m1.artists = artist0 :: r1 → m2.artists = artist0 :: r2 →
      m1.is_local = false → m2.is_local = false →
      m1.album.name = m2.album.name →
      m1.album.release_date = some y →
      m1.album.release_date_precision = some "year" →
      m2.album.release_date = some (y ++ s2) →
      m2.album.release_date_precision = some "day" →
      s2.length = 6 → "-01-01" < s2 →
      processItem ⟨some (.Track m1)⟩ = .ok k1 →
      processItem ⟨some (.Track m2)⟩ = .ok k2 → k1 < k2) := by
  constructor
  · intro m1 m2 artist0 r1 r2 d p k1 k2 ha1 ha2 hl1 hl2 halb hd1 hp1 hdisc ht1 ht2 hk1 hk2
    have hd2 : m2.album.release_date = some d := by rw [← halb]; exact hd1
    have hp2 : m2.album.release_date_precision = some p := by rw [← halb]; exact hp1
    have h1 := processItem_eq_spec m1 artist0 r1 d p ha1 hl1 hd1 hp1
    have h2 := processItem_eq_spec m2 artist0 r2 d p ha2 hl2 hd2 hp2
    have e1 : k1 = specCanonicalKey artist0.name d p m1.album.name
        m1.disc_number m1.track_number m1.name := by
      have := hk1.symm.trans h1
      injection this
    have e2 : k2 = specCanonicalKey artist0.name d p m2.album.name
        m2.disc_number m2.track_number m2.name := by
      have := hk2.symm.trans h2
      injection this
    rw [e1, e2, halb, hdisc, ht1, ht2]
    simp only [specCanonicalKey, String.append_assoc]
    repeat apply string_lt_append_left
    apply string_lt_append_trunc
    · rfl
    · rw [String.lt_iff_toList_lt]
      decide
  · intro m1 m2 artist0 r1 r2 y s2 k1 k2 ha1 ha2 hl1 hl2 halb hd1 hp1 hd2 hp2 hs2len hs2lt
      hk1 hk2
    have h1 := processItem_eq_spec m1 artist0 r1 y "year" ha1 hl1 hd1 hp1
    have h2 := processItem_eq_spec m2 artist0 r2 (y ++ s2) "day" ha2 hl2 hd2 hp2
    have e1 : k1 = specCanonicalKey artist0.name y "year" m1.album.name
        m1.disc_number m1.track_number m1.name := by
      have := hk1.symm.trans h1
      injection this
    have e2 : k2 = specCanonicalKey artist0.name (y ++ s2) "day" m2.album.name
        m2.disc_number m2.track_number m2.name := by
      have := hk2.symm.trans h2
      injection this
    rw [e1, e2]
    simp only [specCanonicalKey]
    rw [if_pos trivial, if_neg (by decide), if_neg (by decide)]
    simp only [String.append_assoc]
    repeat apply string_lt_append_left
    apply string_lt_append_trunc
    · rw [hs2len]
      rfl
    · exact hs2lt

end SpotifyReorder

namespace SpotifyReorder

theorem get_music_list_key_ordering_witness :
    ("Art-2020-01-01-Alb-000001-000009-S1" : String)
        < "Art-2020-01-01-Alb-000001-000010-S2"
    ∧ ("Art-2020-01-01-Alb-000001-000002-S1" : String)
        < "Art-2020-03-15-Alb-000001-000002-S2" := by
  constructor
  · exact get_music_list_key_ordering.1
      ⟨"S1", [⟨"Art"⟩], ⟨"Alb", some "2020", some "year"⟩, 1, 9, false⟩
      ⟨"S2", [⟨"Art"⟩], ⟨"Alb", some "2020", some "year"⟩, 1, 10, false⟩
      ⟨"Art"⟩ [] [] "2020" "year"
      "Art-2020-01-01-Alb-000001-000009-S1" "Art-2020-01-01-Alb-000001-000010-S2"
      rfl rfl rfl rfl rfl rfl rfl rfl rfl rfl (by decide) (by decide)
  · exact get_music_list_key_ordering.2
      ⟨"S1", [⟨"Art"⟩], ⟨"Alb", some "2020", some "year"⟩, 1, 2, false⟩
      ⟨"S2", [⟨"Art"⟩], ⟨"Alb", some "2020-03-15", some "day"⟩, 1, 2, false⟩
      ⟨"Art"⟩ [] [] "2020" "-03-15"
      "Art-2020-01-01-Alb-000001-000002-S1" "Art-2020-03-15-Alb-000001-000002-S2"
      rfl rfl rfl rfl rfl rfl rfl (by decide) rfl (by decide)
      (by rw [String.lt_iff_toList_lt]; decide) (by decide) (by decide)

/-- Abort behaviour of the canonicalization loop: once every earlier item
produced a key, the first failing item's error is returned and nothing
else is produced. -/
theorem get_music_list_go_err :
    ∀ (pre : List PlaylistItem) (item : PlaylistItem) (rest : List PlaylistItem)
      (acc : List String) (e : OrderingError),
      (∀ x ∈ pre, ∃ l, processItem x = .ok l) → processItem item = .err e →
      get_music_list_go (pre ++ item :: rest) acc = .err e := by
  intro pre
  induction pre with
  | nil =>
    intro item rest acc e _ hitem
    simp [get_music_list_go, hitem]
  | cons x xs ih =>
    intro item rest acc e hok hitem
    obtain ⟨l, hl⟩ := hok x (List.mem_cons_self x xs)
    simp only [List.cons_append, get_music_list_go, hl]
    exact ih item rest (acc ++ [l]) e (fun z hz => hok z (List.mem_cons_of_mem x hz)) hitem

/-- C7.  Canonicalizer rejection and all-or-nothing failure: an episode
item or a locally-stored track yields the corresponding ineligible-item
error; an absent release date or precision yields the corresponding
missing-field error; and `get_music_list` aborts on the first failing item
with exactly that error, producing no key lists. -/
theorem get_music_list_rejection :
    (∀ (podcast : FullEpisode),
        processItem ⟨some (.Episode podcast)⟩ = .err (.EpisodeInPlaylist podcast))
    ∧ (∀ (music : FullTrack), music.is_local = true →
        processItem ⟨some (.Track music)⟩ = .err (.LocalMusicInPlaylist music))
    ∧ (∀ (music : FullTrack) (artist0 : SimplifiedArtist)
        (rest : List SimplifiedArtist),
        music.is_local = false → music.artists = artist0 :: rest →
        music.album.release_date = none →
        processItem ⟨some (.Track music)⟩
          = .err (.EmptyArgOnMusic "album.release_date" music.name))
    ∧ (∀ (music : FullTrack) (artist0 : SimplifiedArtist)
        (rest : List SimplifiedArtist) (d : String),
        music.is_local = false → music.artists = artist0 :: rest →
        music.album.release_date = some d →
        music.album.release_date_precision = none →
        processItem ⟨some (.Track music)⟩
          = .err (.EmptyArgOnMusic "album.release_date_precision" music.name))
    ∧ (∀ (pre : List PlaylistItem) (item : PlaylistItem) (rest : List PlaylistItem)
        (e : OrderingError),
        (∀ x ∈ pre, ∃ l, processItem x = .ok l) → processItem item = .err e →
        get_music_list (pre ++ item :: rest) = .err e) := by
  refine ⟨?_, ?_, ?_, ?_, ?_⟩
  · intro podcast
    rfl
  · intro music hloc
    simp [processItem, hloc]
  · intro music artist0 rest hloc hart hd
    simp [processItem, hloc, hart, hd]
  · intro music artist0 rest d hloc hart hd hp
    simp [processItem, hloc, hart, hd, hp]
  · intro pre item rest e hok hitem
    exact get_music_list_go_err pre item rest [] e hok hitem

theorem get_music_list_rejection_witness :
    processItem ⟨some (.Episode ⟨"Pod"⟩)⟩ = .err (.EpisodeInPlaylist ⟨"Pod"⟩)
    ∧ get_music_list
        [⟨some (.Track ⟨"Song", [⟨"Art"⟩], ⟨"Alb", some "2020", some "year"⟩, 1, 2, false⟩)⟩,
          ⟨some (.Episode ⟨"Pod"⟩)⟩, ⟨none⟩]
      = .err (.EpisodeInPlaylist ⟨"Pod"⟩) := by
  constructor
  · exact get_music_list_rejection.1 ⟨"Pod"⟩
  · exact get_music_list_rejection.2.2.2.2
      [⟨some (.Track ⟨"Song", [⟨"Art"⟩], ⟨"Alb", some "2020", some "year"⟩, 1, 2, false⟩)⟩]
      ⟨some (.Episode ⟨"Pod"⟩)⟩ [⟨none⟩] (.EpisodeInPlaylist ⟨"Pod"⟩)
      (by
        intro x hx
        obtain rfl := List.mem_singleton.mp hx
        exact ⟨_, rfl⟩)
      (by decide)

/-- Totality of the canonicalization loop when every item yields a key. -/
theorem get_music_list_go_ok :
    ∀ (items : List PlaylistItem) (acc : List String),
      (∀ item ∈ items, ∃ l, processItem item = .ok l) →
      ∃ u o, get_music_list_go items acc = .ok u o := by
  intro items
  induction items with
  | nil =>
    intro acc _
    exact ⟨acc, _, rfl⟩
  | cons x xs ih =>
    intro acc h
    obtain ⟨l, hl⟩ := h x (List.mem_cons_self x xs)
    simp only [get_music_list_go, hl]
    exact ih (acc ++ [l]) (fun z hz => h z (List.mem_cons_of_mem x hz))

/-- C10.  Implicit totality preconditions of canonicalization: an absent
payload reaches the source's `panic!` and an empty artist list reaches the
unguarded `artists[0]` access (both modelled by `panicked`); under the two
unstated preconditions (payload present, artist list non-empty) together
with the stated eligibility and field-presence conditions, `get_music_list`
returns a value. -/
theorem get_music_list_totality :
    processItem ⟨none⟩ = .panicked
    ∧ (∀ (music : FullTrack), music.is_local = false → music.artists = [] →
        processItem ⟨some (.Track music)⟩ = .panicked)
    ∧ (∀ (items : List PlaylistItem),
        (∀ item ∈ items, ∃ (music : FullTrack) (artist0 : SimplifiedArtist)
          (rest : List SimplifiedArtist) (d p : String),
          item.track = some (.Track music) ∧ music.artists = artist0 :: rest
            ∧ music.is_local = false ∧ music.album.release_date = some d
            ∧ music.album.release_date_precision = some p) →
        ∃ unordered ordered, get_music_list items = .ok unordered ordered) := by
  refine ⟨rfl, ?_, ?_⟩
  · intro music hloc hart
    simp [processItem, hloc, hart]
  · intro items hcond
    apply get_music_list_go_ok items []
    intro item hitem
    obtain ⟨music, artist0, rest, d, p, htrack, hart, hloc, hd, hp⟩ := hcond item hitem
    have h := processItem_eq_spec music artist0 rest d p hart hloc hd hp
    rw [← htrack] at h
    exact ⟨_, h⟩

theorem get_music_list_totality_witness :
    processItem ⟨none⟩ = .panicked
    ∧ processItem ⟨some (.Track ⟨"Song", [], ⟨"Alb", some "2020", some "year"⟩, 1, 2, false⟩)⟩
        = .panicked
    ∧ ∃ unordered ordered, get_music_list
        [⟨some (.Track ⟨"Song", [⟨"Art"⟩], ⟨"Alb", some "2020", some "year"⟩, 1, 2, false⟩)⟩]
      = .ok unordered ordered := by
  refine ⟨get_music_list_totality.1, get_music_list_totality.2.1 _ rfl rfl, ?_⟩
  apply get_music_list_totality.2.2
  intro item hitem
  obtain rfl := List.mem_singleton.mp hitem
  exact ⟨_, ⟨"Art"⟩, [], "2020", "year", rfl, rfl, rfl, rfl, rfl⟩

end SpotifyReorder
